import Mathlib

/-!
Verification of the lag-binned autocorrelation engine in `cpv/acf.py`.

The embedding translates the source functions into pure Lean functions:

* intervals carry integer coordinates and a rational value `p`
  (`bediter` records `{chrom, start, end, p}`; the chromosome key is
  handled outside the per-chromosome kernel, so it is not a field here);
* the `array("f")` pair of each lag bin becomes a pair of `List ℚ`;
* Python exceptions (`ValueError` from `max()` on an empty sequence,
  `IndexError` from `pop()` on an empty list, `AssertionError` in
  `merge_acfs`, `ValueError` from `range` with zero step) become an
  `Except AcfErr` result;
* `np.corrcoef(xs, ys)[0, 1]` is represented by its rational sufficient
  statistics `(n, Σx, Σy, Σx², Σy², Σxy)` (`CorrKey`): the Pearson
  coefficient equals `(n·Σxy − Σx·Σy) / sqrt((n·Σx² − (Σx)²)·(n·Σy² − (Σy)²))`,
  so two datasets with equal `CorrKey` have equal coefficients (including
  the degenerate NaN cases);
* the `-np.log10` elementwise transform of `local_acf` is kept as an
  explicit function parameter `t : ℚ → ℚ` (the logarithm itself is a real
  transcendental function; every statement below holds for the actual
  `fun v => -log10 v` because it holds for all `t`);
* the Python dict `acf_res` keyed by `(lag_min, lag_max)` is modelled as
  the list of inserted entries followed by `sorted()` (an insertion sort
  on the key); this is exact whenever the bin keys are distinct, which
  `create_acf_list` guarantees for strictly increasing lag lists.
-/

/-- One interval record as produced by `bediter`: `start`/`end` coordinates
and the value `p` from the chosen column.  `end_` models the Python key
`'end'` (a Lean keyword). -/
structure Ivl where
  start : Int
  end_ : Int
  p : ℚ
deriving DecidableEq, Repr

/-- One lag bin `(lag_min, lag_max, {"x": array, "y": array})` from
`create_acf_list`. -/
structure LagBin where
  lagMin : Int
  lagMax : Int
  xs : List ℚ
  ys : List ℚ
deriving DecidableEq, Repr

/-- `pairwise` from `_common.py`: `s -> (s0,s1), (s1,s2), (s2,s3), ...`. -/
def pairwise {α : Type} : List α → List (α × α)
  | a :: b :: rest => (a, b) :: pairwise (b :: rest)
  | _ => []

/-- `create_acf_list(lags)`: one empty bin per adjacent lag pair, then the
list is reversed (largest lag range first). -/
def create_acf_list (lags : List Int) : List LagBin :=
  ((pairwise lags).map (fun q => ⟨q.1, q.2, [], []⟩)).reverse

/-- `dist = ybed['start'] - xbed['end']`. -/
def distOf (x y : Ivl) : Int := y.start - x.end_

/-- The key `(lag_min, lag_max)` of a bin. -/
def binKey (b : LagBin) : Int × Int := (b.lagMin, b.lagMax)

/-- `lag_min <= dist < lag_max`: the pair at distance `d` belongs to bin `b`. -/
def matchD (d : Int) (b : LagBin) : Prop := b.lagMin ≤ d ∧ d < b.lagMax

instance (d : Int) (b : LagBin) : Decidable (matchD d b) :=
  inferInstanceAs (Decidable (b.lagMin ≤ d ∧ d < b.lagMax))

/-- Append one pair to a bin: `xys["x"].append(xbed['p']);
xys["y"].append(ybed['p'])`. -/
def appendPair (b : LagBin) (xp yp : ℚ) : LagBin :=
  { b with xs := b.xs ++ [xp], ys := b.ys ++ [yp] }

/-- The inner bin-assignment loop of `_acf_by_chrom` for one candidate pair:
scan bins in list order (largest lag range first); append on a range match;
`break` (leaving the remaining bins untouched) once `dist > lag_max`. -/
def binPair (d : Int) (xp yp : ℚ) : List LagBin → List LagBin
  | [] => []
  | b :: rest =>
    if matchD d b then appendPair b xp yp :: binPair d xp yp rest
    else if b.lagMax < d then b :: rest
    else b :: binPair d xp yp rest

/-- The forward scan over `ybed` for a fixed `xbed` in `_acf_by_chrom`:
`break` as soon as `dist > max_lag`. -/
def scanYs (mx : Int) (x : Ivl) : List Ivl → List LagBin → List LagBin
  | [], bins => bins
  | y :: rest, bins =>
    if mx < distOf x y then bins
    else scanYs mx x rest (binPair (distOf x y) x.p y.p bins)

/-- The outer loop of `_acf_by_chrom` over `enumerate(chromlist)`: each `x`
is paired against the intervals after it. -/
def acfLoop (mx : Int) : List Ivl → List LagBin → List LagBin
  | [], bins => bins
  | x :: rest, bins => acfLoop mx rest (scanYs mx x rest bins)

/-- The error outcomes of the pipeline, one per Python exception site. -/
inductive AcfErr where
  | stepZero
  | maxEmpty
  | popEmpty
  | mergeAssert
deriving DecidableEq, Repr

/-- `max(a[1] for a in acfs)`: `none` models the `ValueError` that `max`
raises on an empty sequence. -/
def maxLagMax : List LagBin → Option Int
  | [] => none
  | b :: rest => some (rest.foldl (fun m c => max m c.lagMax) b.lagMax)

/-- `_acf_by_chrom((chromlist, lags))`. -/
def acf_by_chrom (chromlist : List Ivl) (lags : List Int) :
    Except AcfErr (List LagBin) :=
  let acfs := create_acf_list lags
  match maxLagMax acfs with
  | none => .error .maxEmpty
  | some mx => .ok (acfLoop mx chromlist acfs)

/-- One step of `merge_acfs`: `izip(merged, um)` walks both lists up to the
shorter one, asserts key equality, and extends the merged arrays. -/
def mergeBins : List LagBin → List LagBin → Except AcfErr (List LagBin)
  | g :: gs, u :: us =>
    if g.lagMin = u.lagMin ∧ g.lagMax = u.lagMax then
      match mergeBins gs us with
      | .ok r => .ok ({ g with xs := g.xs ++ u.xs, ys := g.ys ++ u.ys } :: r)
      | .error e => .error e
    else .error .mergeAssert
  | gs, _ => .ok gs

/-- The `for um in unmerged` loop of `merge_acfs`. -/
def mergeFold : List LagBin → List (List LagBin) → Except AcfErr (List LagBin)
  | g, [] => .ok g
  | g, u :: rest =>
    match mergeBins g u with
    | .ok g2 => mergeFold g2 rest
    | .error e => .error e

/-- `merge_acfs(unmerged)`: `merged = unmerged.pop()` (raises `IndexError`
on an empty list, modelled by `.error .popEmpty`), then each remaining
source is folded in, in original order. -/
def merge_acfs (unmerged : List (List LagBin)) : Except AcfErr (List LagBin) :=
  match unmerged.getLast? with
  | none => .error .popEmpty
  | some last => mergeFold last unmerged.dropLast

/-- Sufficient statistics of a paired sample: `np.corrcoef(xs, ys)[0, 1]`
is a function of this record, so equal `CorrKey`s mean equal Pearson
coefficients. -/
structure CorrKey where
  n : ℕ
  sx : ℚ
  sy : ℚ
  sxx : ℚ
  syy : ℚ
  sxy : ℚ
deriving DecidableEq, Repr

/-- Statistics of a list of pairs. -/
def statsOf (ps : List (ℚ × ℚ)) : CorrKey :=
  { n := ps.length
    sx := (ps.map Prod.fst).sum
    sy := (ps.map Prod.snd).sum
    sxx := (ps.map (fun q => q.1 * q.1)).sum
    syy := (ps.map (fun q => q.2 * q.2)).sum
    sxy := (ps.map (fun q => q.1 * q.2)).sum }

/-- Statistics of a multiset of pairs (order-free view of the same data). -/
def statsOfM (s : Multiset (ℚ × ℚ)) : CorrKey :=
  { n := s.card
    sx := (s.map Prod.fst).sum
    sy := (s.map Prod.snd).sum
    sxx := (s.map (fun q => q.1 * q.1)).sum
    syy := (s.map (fun q => q.2 * q.2)).sum
    sxy := (s.map (fun q => q.1 * q.2)).sum }

/-- The representation of `np.corrcoef(xs, ys)[0, 1]` on two equal-length
value arrays. -/
def corrKey (xs ys : List ℚ) : CorrKey := statsOf (xs.zip ys)

/-- A reported coefficient: the string `"NA"` or a numeric Pearson value
(represented by its sufficient statistics). -/
inductive Coef where
  | NA : Coef
  | val : CorrKey → Coef
deriving DecidableEq, Repr

/-- One output cell: `(lag_min, lag_max, coefficient, N)`. -/
structure ResEntry where
  lagMin : Int
  lagMax : Int
  coef : Coef
  n : ℕ
deriving DecidableEq, Repr

/-- The per-bin cell of a `local_acf` row (acf.py lines 83-89): transform
both arrays elementwise with `t` (standing for `lambda v: -log10(v)`) and
report the coefficient when `len(xs) > 3`, else `"NA"` with the true count. -/
def localEntry (t : ℚ → ℚ) (b : LagBin) : ResEntry :=
  if 3 < b.xs.length then
    ⟨b.lagMin, b.lagMax, Coef.val (corrKey (b.xs.map t) (b.ys.map t)), b.xs.length⟩
  else
    ⟨b.lagMin, b.lagMax, Coef.NA, b.xs.length⟩

/-- One `local_acf` output row for a center interval: run `_acf_by_chrom`
on the neighbor list and emit one cell per bin of
`reversed(_acf_by_chrom((neighbors, lags)))`. -/
def localRow (t : ℚ → ℚ) (neighbors : List Ivl) (lags : List Int) :
    Except AcfErr (List ResEntry) :=
  (acf_by_chrom neighbors lags).map (fun acfs => acfs.reverse.map (localEntry t))

/-- Key order used by Python's `sorted(acf_res.items())` (lexicographic on
`(lag_min, lag_max)`; the keys are distinct in every reachable state). -/
def keyLe (a b : ResEntry) : Prop :=
  a.lagMin < b.lagMin ∨ (a.lagMin = b.lagMin ∧ a.lagMax ≤ b.lagMax)

instance (a b : ResEntry) : Decidable (keyLe a b) :=
  inferInstanceAs (Decidable (_ ∨ _))

/-- Insertion into a key-sorted entry list. -/
def insEntry (e : ResEntry) : List ResEntry → List ResEntry
  | [] => [e]
  | f :: rest => if keyLe e f then e :: f :: rest else f :: insEntry e rest

/-- `sorted(acf_res.items())`. -/
def sortEntries : List ResEntry → List ResEntry
  | [] => []
  | e :: rest => insEntry e (sortEntries rest)

/-- The entry produced in partial mode for a nonempty bin. -/
def mkP (b : LagBin) : ResEntry :=
  ⟨b.lagMin, b.lagMax, Coef.val (corrKey b.xs b.ys), b.xs.length⟩

/-- The `while len(acfs): acfs.pop()` reduction loop of `acf` (lines
125-140, `simple=False` as used by `run`), already applied to the reversed
list so bins are visited smallest lag first.  In partial mode `xs, ys` are
the bin's own arrays; in full mode they are the growing `np.hstack`
accumulator.  A zero-length `xs` prints a warning and `continue`s, so that
bin is omitted from `acf_res`. -/
def reduceLoop (part : Bool) : List LagBin → List ℚ → List ℚ → List ResEntry
  | [], _, _ => []
  | b :: rest, accx, accy =>
    let xs := if part then b.xs else accx ++ b.xs
    let ys := if part then b.ys else accy ++ b.ys
    if xs.length = 0 then reduceLoop part rest xs ys
    else ⟨b.lagMin, b.lagMax, Coef.val (corrKey xs ys), xs.length⟩ :: reduceLoop part rest xs ys

/-- Lines 121-141 of `acf`: reduce the merged bin list and return
`sorted(acf_res.items())`. -/
def acfReduce (part : Bool) (acfs : List LagBin) : List ResEntry :=
  sortEntries (reduceLoop part acfs.reverse [] [])

/-- The genome-wide `acf(fnames, lags, col_num0, partial)` pipeline, with
the per-chromosome units of work (one sorted interval list per chromosome
per file, in input order) standing for the grouped `bediter` streams. -/
def acfModel (units : List (List Ivl)) (lags : List Int) (part : Bool) :
    Except AcfErr (List ResEntry) := do
  let unmerged ← units.mapM (fun u => acf_by_chrom u lags)
  let merged ← merge_acfs unmerged
  return acfReduce part merged

/-- Python 2 `range(lo, hi, step)`: `ValueError` on a zero step, otherwise
the arithmetic progression `lo, lo+step, ...` strictly before `hi`
(strictly after, for a negative step). -/
def pythonRange (lo hi step : Int) : Except AcfErr (List Int) :=
  if step = 0 then .error .stepZero
  else if 0 < step then
    .ok ((List.range (((hi - lo).toNat + step.toNat - 1) / step.toNat)).map
      (fun i : ℕ => lo + step * (i : Int)))
  else
    .ok ((List.range (((lo - hi).toNat + (-step).toNat - 1) / (-step).toNat)).map
      (fun i : ℕ => lo + step * (i : Int)))

/-- `run(args)` for the genome-wide path: `d[1] += 1` then
`lags = range(*d)` then `acf(...)`. -/
def runAcf (lo hi step : Int) (units : List (List Ivl)) (part : Bool) :
    Except AcfErr (List ResEntry) := do
  let lags ← pythonRange lo (hi + 1) step
  acfModel units lags part

/-- All ordered pairs `(x, y)` with `y` strictly after `x` in the list, in
scan order.  This is the reference enumeration for the exhaustive scan. -/
def pairsOf : List Ivl → List (Ivl × Ivl)
  | [] => []
  | x :: rest => rest.map (fun y => (x, y)) ++ pairsOf rest

/-- One exhaustive-scan step: assign a single candidate pair with the same
bin-assignment loop as the real scan. -/
def binStep (bs : List LagBin) (q : Ivl × Ivl) : List LagBin :=
  binPair (distOf q.1 q.2) q.1.p q.2.p bs

/-- Modelled from the spec: the exhaustive reference scan that feeds every
pair `(i, j)` with `j > i` to the bin-assignment loop, with no
distance-based early break.  The refinement claim compares `acfLoop`
against this. -/
def acfExhaustive (chromlist : List Ivl) (bins : List LagBin) : List LagBin :=
  (pairsOf chromlist).foldl binStep bins

/-- A bin with the matching pairs of `ps` appended: earlier interval's
value to `xs`, later interval's value to `ys`. -/
def appendAll (b : LagBin) (qs : List (Ivl × Ivl)) : LagBin :=
  { b with xs := b.xs ++ qs.map (fun q => q.1.p), ys := b.ys ++ qs.map (fun q => q.2.p) }

/-- Well-formed bin list: ranges strictly below the ranges earlier in the
list (the largest-first order of `create_acf_list`) and nonempty. -/
def binsWF (bins : List LagBin) : Prop :=
  List.Pairwise (fun a b => b.lagMax ≤ a.lagMin) bins ∧ ∀ b ∈ bins, b.lagMin < b.lagMax

/-- Input contract: intervals sorted by start coordinate. -/
def startSorted (l : List Ivl) : Prop :=
  List.Pairwise (fun a b => a.start ≤ b.start) l

instance (l : List Ivl) : Decidable (startSorted l) :=
  inferInstanceAs (Decidable (List.Pairwise _ l))

instance (bins : List LagBin) : Decidable (binsWF bins) :=
  inferInstanceAs (Decidable (_ ∧ _))

/-- `true` exactly when a reported coefficient is the string `"NA"`. -/
def isNA : Coef → Bool
  | .NA => true
  | .val _ => false

/-- The multiset of `(x, y)` pairs accumulated in one bin: the order-free
data the Pearson coefficient is computed from. -/
def binPairsM (b : LagBin) : Multiset (ℚ × ℚ) := (b.xs.zip b.ys : List (ℚ × ℚ))

/-- The per-bin pair multisets of one unit of work. -/
def payload (u : List LagBin) : List (Multiset (ℚ × ℚ)) := u.map binPairsM

/-- Pointwise union of two per-bin payloads. -/
def addP (a b : List (Multiset (ℚ × ℚ))) : List (Multiset (ℚ × ℚ)) :=
  List.zipWith (· + ·) a b

/-- The bin produced by one `merge_acfs` extend step:
`gxys["x"].extend(uxys["x"]); gxys["y"].extend(uxys["y"])`. -/
def combineBins (a b : LagBin) : LagBin :=
  ⟨a.lagMin, a.lagMax, a.xs ++ b.xs, a.ys ++ b.ys⟩

/-- Concatenation of the `xs` arrays of a bin list (the full-mode
accumulator contents after those bins were absorbed). -/
def joinXs (l : List LagBin) : List ℚ := (l.map (fun b => b.xs)).flatten

/-- Concatenation of the `ys` arrays of a bin list. -/
def joinYs (l : List LagBin) : List ℚ := (l.map (fun b => b.ys)).flatten

/-- C1 -- counterexample.  The spec's own concrete scenario (three intervals
`(0,10,0.1), (20,30,0.2), (40,50,0.3)`, lag bins `[0,15)` and `[15,35)`)
fed to the genome-wide reducer in partial mode: the bins hold 2 and 1
pairs, and the reducer reports *numeric* Pearson coefficients (`isNA =
false`) for both, although the claim requires `"NA"` whenever
`1 ≤ n ≤ 3`.  The `n ≤ 3 → "NA"` rule exists only in `local_acf`. -/
theorem acf_reducer_numeric_small_n_cex :
    ((acfModel [[⟨0, 10, 1/10⟩, ⟨20, 30, 1/5⟩, ⟨40, 50, 3/10⟩]] [0, 15, 35] true).toOption.map
      (fun l => l.map (fun e => (e.lagMin, e.lagMax, isNA e.coef, e.n))))
    = some [(0, 15, false, 2), (15, 35, false, 1)] := by decide

/-- C6 -- counterexample.  With the program's default specification
`(lo, hi, step) = (15, 500, 50)` (the caller-visible stop `hi = 500` made
inclusive by `d[1] += 1`), the generated lag list ends at `465`, not at
`hi = 500`: the last value equals `hi` only when `step` divides
`hi - lo`. -/
theorem lag_last_not_hi_cex :
    ((pythonRange 15 (500 + 1) 50).toOption.bind List.getLast?) = some 465 ∧
      (465 : Int) ≠ 500 := by decide

/-- C7 -- counterexample.  A negative step with `lo > hi` --
`(lo, hi, step) = (500, 10, -50)` -- does not fail: `range(500, 11, -50)`
yields ten descending lag values, `create_acf_list` builds nine degenerate
(empty-range) bins, and on a nonempty chromosome the whole pipeline
completes and returns an empty result table instead of raising a
configuration error. -/
theorem negative_step_no_error_cex :
    (runAcf 500 10 (-50) [[⟨0, 10, 1/2⟩, ⟨20, 30, 1/4⟩]] true).toOption
      = some [] := by decide

/-- C9 -- counterexample.  A `local_acf` row on the neighbor list
`(0,10,0.1), (20,30,0.2), (40,50,0.3)` with lag bins `[0,15)` and
`[15,35)` lists the bins smallest lag first -- `reversed(...)` of the
largest-first `_acf_by_chrom` list -- so its column order is
`[(0,15), (15,35)]`, not the claimed largest-to-smallest order. -/
theorem local_row_order_cex :
    ((localRow (fun q => q) [⟨0, 10, 1/10⟩, ⟨20, 30, 1/5⟩, ⟨40, 50, 3/10⟩]
        [0, 15, 35]).toOption.map (fun row => row.map (fun e => (e.lagMin, e.lagMax))))
      = some [(0, 15), (15, 35)] ∧
      [((0 : Int), (15 : Int)), (15, 35)] ≠ [(15, 35), (0, 15)] := by decide

/-- C10.  When the genome-wide entry point gets zero per-chromosome units
of work (empty file list, or files yielding no records), `merge_acfs` is
called on an empty list and `unmerged.pop()` raises `IndexError`
(modelled by `.error .popEmpty`); no empty result table is returned. -/
theorem acf_empty_units_pop_error (lags : List Int) (part : Bool) :
    acfModel [] lags part = .error .popEmpty ∧
      merge_acfs [] = .error .popEmpty := ⟨rfl, rfl⟩

lemma appendPair_binKey (b : LagBin) (xp yp : ℚ) : binKey (appendPair b xp yp) = binKey b := rfl

lemma appendPair_lagMin (b : LagBin) (xp yp : ℚ) : (appendPair b xp yp).lagMin = b.lagMin := rfl

lemma appendPair_lagMax (b : LagBin) (xp yp : ℚ) : (appendPair b xp yp).lagMax = b.lagMax := rfl

/-- If no bin's range contains `d`, the assignment loop leaves the bin
list unchanged (the pair is dropped, with no error). -/
lemma binPair_nomatch (d : Int) (xp yp : ℚ) :
    ∀ bins : List LagBin, (∀ b ∈ bins, ¬ matchD d b) → binPair d xp yp bins = bins := by
  intro bins
  induction bins with
  | nil => intro _; rfl
  | cons b rest ih =>
    intro h
    simp only [binPair, if_neg (h b (List.mem_cons_self b rest))]
    by_cases hb : b.lagMax < d
    · simp [hb]
    · simp only [if_neg hb]
      rw [ih (fun c hc => h c (List.mem_cons_of_mem b hc))]

/-- The assignment loop never changes the bin boundaries. -/
lemma binPair_map_binKey (d : Int) (xp yp : ℚ) :
    ∀ bins : List LagBin, (binPair d xp yp bins).map binKey = bins.map binKey := by
  intro bins
  induction bins with
  | nil => rfl
  | cons b rest ih =>
    simp only [binPair]
    by_cases hm : matchD d b
    · simp [hm, ih, appendPair_binKey]
    · by_cases hb : b.lagMax < d
      · simp [hm, hb]
      · simp [hm, hb, ih]

lemma binPair_lagMax_bound {mx : Int} (d : Int) (xp yp : ℚ) :
    ∀ bins : List LagBin, (∀ b ∈ bins, b.lagMax ≤ mx) →
      ∀ b ∈ binPair d xp yp bins, b.lagMax ≤ mx := by
  intro bins
  induction bins with
  | nil => intro _ b hb; cases hb
  | cons c rest ih =>
    intro h b hb
    have hc := h c (List.mem_cons_self c rest)
    have hrest := fun x hx => h x (List.mem_cons_of_mem c hx)
    simp only [binPair] at hb
    by_cases hm : matchD d c
    · rw [if_pos hm] at hb
      rcases List.mem_cons.mp hb with h1 | h1
      · rw [h1, appendPair_lagMax]; exact hc
      · exact ih hrest b h1
    · rw [if_neg hm] at hb
      by_cases hlt : c.lagMax < d
      · rw [if_pos hlt] at hb
        exact h b hb
      · rw [if_neg hlt] at hb
        rcases List.mem_cons.mp hb with h1 | h1
        · rw [h1]; exact hc
        · exact ih hrest b h1

lemma map_if_not {α : Type} (p : α → Prop) [DecidablePred p] (f : α → α) :
    ∀ l : List α, (∀ a ∈ l, ¬ p a) → (l.map fun a => if p a then f a else a) = l := by
  intro l
  induction l with
  | nil => intro _; rfl
  | cons a rest ih =>
    intro h
    simp only [List.map_cons, if_neg (h a (List.mem_cons_self a rest)),
      ih (fun c hc => h c (List.mem_cons_of_mem a hc))]

/-- On a well-formed (largest-first, disjoint) bin list, the assignment
loop with its two `break`s acts exactly as the pointwise conditional
append: the matching bin (if any) receives the pair, all others are
untouched. -/
lemma binPair_eq_map (d : Int) (xp yp : ℚ) :
    ∀ bins : List LagBin, binsWF bins →
      binPair d xp yp bins = bins.map (fun b => if matchD d b then appendPair b xp yp else b) := by
  intro bins
  induction bins with
  | nil => intro _; rfl
  | cons b rest ih =>
    intro hwf
    obtain ⟨hpw, hlt⟩ := hwf
    have hpw' := (List.pairwise_cons.mp hpw).2
    have hrel := (List.pairwise_cons.mp hpw).1
    have hlt' : ∀ c ∈ rest, c.lagMin < c.lagMax :=
      fun c hc => hlt c (List.mem_cons_of_mem b hc)
    simp only [binPair, List.map_cons]
    by_cases hm : matchD d b
    · rw [if_pos hm, if_pos hm]
      have hnom : ∀ c ∈ rest, ¬ matchD d c := by
        intro c hc hmc
        exact absurd (lt_of_lt_of_le hmc.2 (le_trans (hrel c hc) hm.1)) (lt_irrefl d)
      rw [binPair_nomatch d xp yp rest hnom, map_if_not _ _ rest hnom]
    · rw [if_neg hm, if_neg hm]
      by_cases hb : b.lagMax < d
      · rw [if_pos hb]
        have hnom : ∀ c ∈ rest, ¬ matchD d c := by
          intro c hc hmc
          have h1 : c.lagMax ≤ b.lagMin := hrel c hc
          have h2 : b.lagMin < b.lagMax := hlt b (List.mem_cons_self b rest)
          exact absurd (lt_trans (lt_of_lt_of_le hmc.2 h1) (lt_trans h2 hb)) (lt_irrefl d)
        rw [map_if_not _ _ rest hnom]
      · rw [if_neg hb, ih ⟨hpw', hlt'⟩]

/-- A distance matches at most one bin of a well-formed bin list. -/
lemma countP_matchD_le_one (d : Int) :
    ∀ bins : List LagBin, binsWF bins →
      bins.countP (fun b => decide (matchD d b)) ≤ 1 := by
  intro bins
  induction bins with
  | nil => intro _; simp [List.countP_nil]
  | cons b rest ih =>
    intro hwf
    obtain ⟨hpw, hlt⟩ := hwf
    have hpw' := (List.pairwise_cons.mp hpw).2
    have hrel := (List.pairwise_cons.mp hpw).1
    have hlt' : ∀ c ∈ rest, c.lagMin < c.lagMax :=
      fun c hc => hlt c (List.mem_cons_of_mem b hc)
    by_cases hm : matchD d b
    · have hnom : ∀ c ∈ rest, ¬ matchD d c := by
        intro c hc hmc
        exact absurd (lt_of_lt_of_le hmc.2 (le_trans (hrel c hc) hm.1)) (lt_irrefl d)
      have h0 : rest.countP (fun b => decide (matchD d b)) = 0 := by
        rw [List.countP_eq_zero]
        intro c hc
        simpa using hnom c hc
      rw [List.countP_cons_of_pos _ _ (by simpa using hm), h0]
    · rw [List.countP_cons_of_neg _ _ (by simpa using hm)]
      exact ih ⟨hpw', hlt'⟩

lemma binStep_lagMax_bound {mx : Int} (q : Ivl × Ivl) :
    ∀ bins : List LagBin, (∀ b ∈ bins, b.lagMax ≤ mx) →
      ∀ b ∈ binStep bins q, b.lagMax ≤ mx :=
  fun bins h => binPair_lagMax_bound _ _ _ bins h

lemma foldl_binStep_lagMax_bound {mx : Int} :
    ∀ (ps : List (Ivl × Ivl)) (bins : List LagBin),
      (∀ b ∈ bins, b.lagMax ≤ mx) → ∀ b ∈ ps.foldl binStep bins, b.lagMax ≤ mx := by
  intro ps
  induction ps with
  | nil => intro bins h; exact h
  | cons q rest ih =>
    intro bins h
    exact ih (binStep bins q) (binStep_lagMax_bound q bins h)

/-- Pairs whose distance already exceeds every bin's upper bound leave the
accumulation untouched. -/
lemma foldl_binStep_const {mx : Int} :
    ∀ (ps : List (Ivl × Ivl)) (bins : List LagBin),
      (∀ q ∈ ps, mx < distOf q.1 q.2) → (∀ b ∈ bins, b.lagMax ≤ mx) →
      ps.foldl binStep bins = bins := by
  intro ps
  induction ps with
  | nil => intro bins _ _; rfl
  | cons q rest ih =>
    intro bins hq hb
    have h1 : binStep bins q = bins := by
      apply binPair_nomatch
      intro b hbm hm
      exact absurd (lt_trans (hq q (List.mem_cons_self q rest)) hm.2)
        (not_lt_of_le (hb b hbm))
    rw [List.foldl_cons, h1]
    exact ih bins (fun p hp => hq p (List.mem_cons_of_mem q hp)) hb

/-- The early-break forward scan for one `x` equals feeding every pair
`(x, y)` (for all later `y`) to the assignment loop, provided the `y`s are
sorted by start and `mx` bounds every bin. -/
lemma scanYs_eq_foldl {mx : Int} (x : Ivl) :
    ∀ (ys : List Ivl) (bins : List LagBin), startSorted ys →
      (∀ b ∈ bins, b.lagMax ≤ mx) →
      scanYs mx x ys bins = (ys.map (fun y => ((x, y) : Ivl × Ivl))).foldl binStep bins := by
  intro ys
  induction ys with
  | nil => intro bins _ _; rfl
  | cons y rest ih =>
    intro bins hs hb
    have hs' : startSorted rest := (List.pairwise_cons.mp hs).2
    have hrel := (List.pairwise_cons.mp hs).1
    simp only [scanYs, List.map_cons, List.foldl_cons]
    by_cases hd : mx < distOf x y
    · rw [if_pos hd]
      have h1 : binStep bins (x, y) = bins := by
        apply binPair_nomatch
        intro b hbm hm
        exact absurd (lt_trans hd hm.2) (not_lt_of_le (hb b hbm))
      rw [h1, foldl_binStep_const _ bins _ hb]
      intro q hq
      rcases List.mem_map.mp hq with ⟨y2, hy2, rfl⟩
      have : y.start ≤ y2.start := hrel y2 hy2
      simp only [distOf] at hd ⊢
      omega
    · rw [if_neg hd]
      exact ih (binPair (distOf x y) x.p y.p bins) hs'
        (binPair_lagMax_bound _ _ _ bins hb)

/-- The full double loop of `_acf_by_chrom` equals the exhaustive scan
over all ordered pairs. -/
lemma acfLoop_eq_exhaustive {mx : Int} :
    ∀ (chromlist : List Ivl) (bins : List LagBin), startSorted chromlist →
      (∀ b ∈ bins, b.lagMax ≤ mx) →
      acfLoop mx chromlist bins = acfExhaustive chromlist bins := by
  intro chromlist
  induction chromlist with
  | nil => intro bins _ _; rfl
  | cons x rest ih =>
    intro bins hs hb
    have hs' : startSorted rest := (List.pairwise_cons.mp hs).2
    simp only [acfLoop, acfExhaustive, pairsOf, List.foldl_append]
    rw [scanYs_eq_foldl x rest bins hs' hb]
    exact ih _ hs' (foldl_binStep_lagMax_bound _ bins hb)

lemma le_foldl_max (l : List LagBin) :
    ∀ a : Int, a ≤ l.foldl (fun m c => max m c.lagMax) a := by
  induction l with
  | nil => intro a; exact le_refl a
  | cons c t ih =>
    intro a
    exact le_trans (le_max_left a c.lagMax) (ih (max a c.lagMax))

lemma mem_le_foldl_max (l : List LagBin) :
    ∀ (a : Int) (x : LagBin), x ∈ l → x.lagMax ≤ l.foldl (fun m c => max m c.lagMax) a := by
  induction l with
  | nil => intro a x hx; cases hx
  | cons c t ih =>
    intro a x hx
    rcases List.mem_cons.mp hx with h1 | h1
    · rw [h1]
      exact le_trans (le_max_right a c.lagMax) (le_foldl_max t _)
    · exact ih _ x h1

/-- `max(a[1] for a in acfs)` bounds every bin's upper edge. -/
lemma maxLagMax_bound {bins : List LagBin} {mx : Int} (h : maxLagMax bins = some mx) :
    ∀ b ∈ bins, b.lagMax ≤ mx := by
  cases bins with
  | nil => cases h
  | cons c rest =>
    simp only [maxLagMax, Option.some.injEq] at h
    intro b hb
    rcases List.mem_cons.mp hb with h1 | h1
    · rw [h1, ← h]
      exact le_foldl_max rest c.lagMax
    · rw [← h]
      exact mem_le_foldl_max rest c.lagMax b h1

/-- C2.  On a start-sorted chromosome, the forward scan that breaks as
soon as `dist = y.start - x.end` exceeds the largest lag bound
(`maxLagMax`) produces exactly the same per-bin state as the exhaustive
scan that feeds every pair `(i, j)`, `j > i`, to the assignment loop: the
early break never skips a pair that some bin could hold. -/
theorem early_break_scan_eq_exhaustive (chromlist : List Ivl) (bins : List LagBin)
    (mx : Int) (hs : startSorted chromlist) (hmx : maxLagMax bins = some mx) :
    acfLoop mx chromlist bins = acfExhaustive chromlist bins :=
  acfLoop_eq_exhaustive chromlist bins hs (maxLagMax_bound hmx)

/-- Witness for C2: the spec's three-interval scenario with bins
`[0,15), [15,35)` (built by `create_acf_list [0, 15, 35]`, whose
`maxLagMax` is `35`). -/
theorem early_break_scan_eq_exhaustive_witness :
    startSorted [⟨0, 10, 1/10⟩, ⟨20, 30, 1/5⟩, ⟨40, 50, 3/10⟩] ∧
      maxLagMax (create_acf_list [0, 15, 35]) = some 35 ∧
      acfLoop 35 [⟨0, 10, 1/10⟩, ⟨20, 30, 1/5⟩, ⟨40, 50, 3/10⟩]
          (create_acf_list [0, 15, 35])
        = acfExhaustive [⟨0, 10, 1/10⟩, ⟨20, 30, 1/5⟩, ⟨40, 50, 3/10⟩]
          (create_acf_list [0, 15, 35]) :=
  ⟨by decide, by decide,
    early_break_scan_eq_exhaustive _ _ 35 (by decide) (by decide)⟩

/-- The pointwise conditional append keeps a bin list well-formed (it
never touches the boundaries). -/
lemma binsWF_map_cond (d : Int) (xp yp : ℚ) (bins : List LagBin) (h : binsWF bins) :
    binsWF (bins.map (fun b => if matchD d b then appendPair b xp yp else b)) := by
  obtain ⟨hpw, hlt⟩ := h
  constructor
  · rw [List.pairwise_map]
    apply hpw.imp_of_mem
    intro a b _ _ hab
    by_cases ha : matchD d a <;> by_cases hb : matchD d b <;>
      simp [ha, hb, appendPair_lagMin, appendPair_lagMax, hab]
  · intro b hb
    rcases List.mem_map.mp hb with ⟨c, hc, rfl⟩
    by_cases hm : matchD d c <;>
      simp [hm, appendPair_lagMin, appendPair_lagMax, hlt c hc]

lemma appendAll_nil (b : LagBin) : appendAll b [] = b := by
  simp [appendAll]

/-- Folding the assignment loop over a pair list fills each bin of a
well-formed bin list with exactly its own matching pairs, earlier value
into `xs`, later value into `ys`, in scan order. -/
lemma foldl_binStep_char :
    ∀ (ps : List (Ivl × Ivl)) (bins : List LagBin), binsWF bins →
      ps.foldl binStep bins
        = bins.map (fun b =>
            appendAll b (ps.filter (fun q => decide (matchD (distOf q.1 q.2) b)))) := by
  intro ps
  induction ps with
  | nil =>
    intro bins _
    simp only [List.foldl_nil, List.filter_nil, appendAll_nil, List.map_id']
  | cons q ps ih =>
    intro bins hwf
    have hstep : binStep bins q
        = bins.map (fun b => if matchD (distOf q.1 q.2) b then appendPair b q.1.p q.2.p else b) :=
      binPair_eq_map _ _ _ bins hwf
    rw [List.foldl_cons, hstep, ih _ (binsWF_map_cond _ _ _ bins hwf), List.map_map]
    apply List.map_congr_left
    intro b _
    by_cases hm : matchD (distOf q.1 q.2) b
    · have hkeep : ∀ r : Ivl × Ivl,
          matchD (distOf r.1 r.2) (appendPair b q.1.p q.2.p) ↔ matchD (distOf r.1 r.2) b := by
        intro r
        simp [matchD, appendPair_lagMin, appendPair_lagMax, appendPair]
      simp only [Function.comp_apply, if_pos hm]
      have hfilt : (ps.filter (fun r => decide (matchD (distOf r.1 r.2) (appendPair b q.1.p q.2.p))))
          = ps.filter (fun r => decide (matchD (distOf r.1 r.2) b)) := by
        apply List.filter_congr
        intro r _
        simp [hkeep r]
      rw [hfilt, List.filter_cons_of_pos (by simpa using hm)]
      simp [appendAll, appendPair, List.append_assoc]
    · simp only [Function.comp_apply, if_neg hm]
      rw [List.filter_cons_of_neg (by simpa using hm)]

/-- C4.  During binning on a start-sorted chromosome with well-formed
bins: every candidate pair whose distance matches some bin's half-open
range is appended to exactly that bin -- each bin ends up holding
precisely its own matching pairs, the earlier interval's value in `xs`
and the later interval's value in `ys` -- at most one bin can match any
distance, and pairs matching no bin are silently dropped (each bin simply
does not collect them; no error arises). -/
theorem bin_assignment_unique (chromlist : List Ivl) (bins : List LagBin) (mx : Int)
    (hwf : binsWF bins) (hs : startSorted chromlist) (hmx : maxLagMax bins = some mx) :
    acfLoop mx chromlist bins
        = bins.map (fun b =>
            appendAll b ((pairsOf chromlist).filter
              (fun q => decide (matchD (distOf q.1 q.2) b)))) ∧
      ∀ d : Int, bins.countP (fun b => decide (matchD d b)) ≤ 1 := by
  constructor
  · rw [acfLoop_eq_exhaustive chromlist bins hs (maxLagMax_bound hmx)]
    exact foldl_binStep_char _ bins hwf
  · intro d
    exact countP_matchD_le_one d bins hwf

/-- Witness for C4: the spec's three-interval scenario on the bins of
`create_acf_list [0, 15, 35]`. -/
theorem bin_assignment_unique_witness :
    binsWF (create_acf_list [0, 15, 35]) ∧
      startSorted [⟨0, 10, 1/10⟩, ⟨20, 30, 1/5⟩, ⟨40, 50, 3/10⟩] ∧
      maxLagMax (create_acf_list [0, 15, 35]) = some 35 ∧
      acfLoop 35 [⟨0, 10, 1/10⟩, ⟨20, 30, 1/5⟩, ⟨40, 50, 3/10⟩]
          (create_acf_list [0, 15, 35])
        = (create_acf_list [0, 15, 35]).map (fun b =>
            appendAll b ((pairsOf [⟨0, 10, 1/10⟩, ⟨20, 30, 1/5⟩, ⟨40, 50, 3/10⟩]).filter
              (fun q => decide (matchD (distOf q.1 q.2) b)))) ∧
      (create_acf_list [0, 15, 35]).countP (fun b => decide (matchD 10 b)) ≤ 1 :=
  ⟨by decide, by decide, by decide,
    (bin_assignment_unique [⟨0, 10, 1/10⟩, ⟨20, 30, 1/5⟩, ⟨40, 50, 3/10⟩]
      (create_acf_list [0, 15, 35]) 35 (by decide) (by decide) (by decide)).1,
    (bin_assignment_unique [⟨0, 10, 1/10⟩, ⟨20, 30, 1/5⟩, ⟨40, 50, 3/10⟩]
      (create_acf_list [0, 15, 35]) 35 (by decide) (by decide) (by decide)).2 10⟩

lemma insEntry_perm (e : ResEntry) :
    ∀ l : List ResEntry, (insEntry e l).Perm (e :: l) := by
  intro l
  induction l with
  | nil => exact List.Perm.refl _
  | cons f rest ih =>
    simp only [insEntry]
    by_cases h : keyLe e f
    · rw [if_pos h]
    · rw [if_neg h]
      exact List.Perm.trans (List.Perm.cons f ih) (List.Perm.swap e f rest)

/-- `sorted()` permutes the dict items. -/
lemma sortEntries_perm : ∀ l : List ResEntry, (sortEntries l).Perm l := by
  intro l
  induction l with
  | nil => exact List.Perm.refl _
  | cons e rest ih =>
    exact List.Perm.trans (insEntry_perm e (sortEntries rest)) (List.Perm.cons e ih)

/-- `sorted()` is the identity on an already key-sorted item list. -/
lemma sortEntries_sorted_id :
    ∀ l : List ResEntry, List.Pairwise keyLe l → sortEntries l = l := by
  intro l
  induction l with
  | nil => intro _; rfl
  | cons e rest ih =>
    intro h
    have h1 := (List.pairwise_cons.mp h).1
    have h2 := (List.pairwise_cons.mp h).2
    simp only [sortEntries, ih h2]
    cases rest with
    | nil => rfl
    | cons f tail =>
      simp only [insEntry, if_pos (h1 f (List.mem_cons_self f tail))]

/-- In partial mode the reduction loop reports exactly the nonempty bins,
in visit order, each with its own arrays' Pearson statistics and count. -/
lemma reduceLoop_partial_eq :
    ∀ (l : List LagBin) (ax ay : List ℚ),
      reduceLoop true l ax ay
        = (l.filter (fun b => decide (b.xs.length ≠ 0))).map mkP := by
  intro l
  induction l with
  | nil => intro ax ay; rfl
  | cons b rest ih =>
    intro ax ay
    simp only [reduceLoop, if_true]
    by_cases h : b.xs.length = 0
    · rw [if_pos h, ih, List.filter_cons_of_neg (by simpa using h)]
    · rw [if_neg h, ih, List.filter_cons_of_pos (by simpa using h)]
      rfl

/-- Every entry the reduction loop emits (either mode) has a nonzero
count and a numeric (non-`"NA"`) coefficient. -/
lemma mem_reduceLoop_pos :
    ∀ (part : Bool) (l : List LagBin) (ax ay : List ℚ),
      ∀ e ∈ reduceLoop part l ax ay, 1 ≤ e.n ∧ isNA e.coef = false := by
  intro part l
  induction l with
  | nil => intro ax ay e he; cases he
  | cons b rest ih =>
    intro ax ay e he
    simp only [reduceLoop] at he
    by_cases h : (if part then b.xs else ax ++ b.xs).length = 0
    · rw [if_pos h] at he
      exact ih _ _ e he
    · rw [if_neg h] at he
      rcases List.mem_cons.mp he with h1 | h1
      · subst h1
        exact ⟨Nat.one_le_iff_ne_zero.mpr h, rfl⟩
      · exact ih _ _ e h1

/-- Every emitted entry takes its boundaries from some visited bin. -/
lemma mem_reduceLoop_lagMin :
    ∀ (part : Bool) (l : List LagBin) (ax ay : List ℚ),
      ∀ e ∈ reduceLoop part l ax ay, ∃ b ∈ l, e.lagMin = b.lagMin := by
  intro part l
  induction l with
  | nil => intro ax ay e he; cases he
  | cons b rest ih =>
    intro ax ay e he
    simp only [reduceLoop] at he
    by_cases h : (if part then b.xs else ax ++ b.xs).length = 0
    · rw [if_pos h] at he
      rcases ih _ _ e he with ⟨c, hc, he2⟩
      exact ⟨c, List.mem_cons_of_mem b hc, he2⟩
    · rw [if_neg h] at he
      rcases List.mem_cons.mp he with h1 | h1
      · exact ⟨b, List.mem_cons_self b rest, by rw [h1]⟩
      · rcases ih _ _ e h1 with ⟨c, hc, he2⟩
        exact ⟨c, List.mem_cons_of_mem b hc, he2⟩

/-- If the visited bins have strictly increasing `lag_min`, so do the
emitted entries. -/
lemma reduceLoop_pairwise :
    ∀ (part : Bool) (l : List LagBin) (ax ay : List ℚ),
      List.Pairwise (fun a b : LagBin => a.lagMin < b.lagMin) l →
      List.Pairwise (fun a b : ResEntry => a.lagMin < b.lagMin)
        (reduceLoop part l ax ay) := by
  intro part l
  induction l with
  | nil => intro ax ay _; exact List.Pairwise.nil
  | cons b rest ih =>
    intro ax ay hp
    have h1 := (List.pairwise_cons.mp hp).1
    have h2 := (List.pairwise_cons.mp hp).2
    simp only [reduceLoop]
    by_cases h : (if part then b.xs else ax ++ b.xs).length = 0
    · rw [if_pos h]
      exact ih _ _ h2
    · rw [if_neg h]
      refine List.pairwise_cons.mpr ⟨?_, ih _ _ h2⟩
      intro e he
      rcases mem_reduceLoop_lagMin part rest _ _ e he with ⟨c, hc, he2⟩
      rw [he2]
      exact h1 c hc

/-- Full-mode loop: the reported counts never decrease, and every count
dominates the incoming accumulator's length. -/
lemma reduceLoop_full_chain :
    ∀ (l : List LagBin) (ax ay : List ℚ),
      List.Chain' (fun a b : ResEntry => a.n ≤ b.n) (reduceLoop false l ax ay) ∧
        ∀ e ∈ reduceLoop false l ax ay, ax.length ≤ e.n := by
  intro l
  induction l with
  | nil => intro ax ay; exact ⟨List.chain'_nil, fun e he => absurd he (List.not_mem_nil e)⟩
  | cons b rest ih =>
    intro ax ay
    simp only [reduceLoop, Bool.false_eq_true, if_false]
    by_cases h : (ax ++ b.xs).length = 0
    · rw [if_pos h]
      refine ⟨(ih _ _).1, fun e he => ?_⟩
      have := (ih (ax ++ b.xs) (ay ++ b.ys)).2 e he
      simp only [List.length_append] at this
      omega
    · rw [if_neg h]
      constructor
      · refine List.chain'_cons'.mpr ⟨?_, (ih _ _).1⟩
        intro f hf
        have hm : f ∈ reduceLoop false rest (ax ++ b.xs) (ay ++ b.ys) :=
          List.mem_of_mem_head? hf
        exact (ih _ _).2 f hm
      · intro e he
        rcases List.mem_cons.mp he with h1 | h1
        · rw [h1]
          simp only [List.length_append]
          omega
        · have := (ih (ax ++ b.xs) (ay ++ b.ys)).2 e h1
          simp only [List.length_append] at this
          omega

lemma joinXs_cons (b : LagBin) (l : List LagBin) :
    joinXs (b :: l) = b.xs ++ joinXs l := by simp [joinXs]

lemma joinYs_cons (b : LagBin) (l : List LagBin) :
    joinYs (b :: l) = b.ys ++ joinYs l := by simp [joinYs]

/-- Full-mode loop: every emitted entry is the Pearson statistics of the
entire accumulator so far -- the incoming accumulator plus all bins up to
and including the entry's own bin. -/
lemma reduceLoop_full_char :
    ∀ (l : List LagBin) (ax ay : List ℚ),
      ∀ e ∈ reduceLoop false l ax ay,
        ∃ (k : ℕ) (b : LagBin), l.get? k = some b ∧ e.lagMin = b.lagMin ∧
          e.lagMax = b.lagMax ∧
          e.coef = Coef.val (corrKey (ax ++ joinXs (l.take (k+1)))
            (ay ++ joinYs (l.take (k+1)))) ∧
          e.n = (ax ++ joinXs (l.take (k+1))).length := by
  intro l
  induction l with
  | nil => intro ax ay e he; cases he
  | cons b rest ih =>
    intro ax ay e he
    simp only [reduceLoop, Bool.false_eq_true, if_false] at he
    have step : ∀ e2, e2 ∈ reduceLoop false rest (ax ++ b.xs) (ay ++ b.ys) →
        ∃ (k : ℕ) (c : LagBin), (b :: rest).get? k = some c ∧ e2.lagMin = c.lagMin ∧
          e2.lagMax = c.lagMax ∧
          e2.coef = Coef.val (corrKey (ax ++ joinXs ((b :: rest).take (k+1)))
            (ay ++ joinYs ((b :: rest).take (k+1)))) ∧
          e2.n = (ax ++ joinXs ((b :: rest).take (k+1))).length := by
      intro e2 he2
      rcases ih (ax ++ b.xs) (ay ++ b.ys) e2 he2 with ⟨k, c, hk, h1, h2, h3, h4⟩
      refine ⟨k + 1, c, by simpa using hk, h1, h2, ?_, ?_⟩
      · rw [h3]
        simp [joinXs_cons, joinYs_cons, List.append_assoc]
      · rw [h4]
        simp [joinXs_cons, List.append_assoc]
    by_cases h : (ax ++ b.xs).length = 0
    · rw [if_pos h] at he
      exact step e he
    · rw [if_neg h] at he
      rcases List.mem_cons.mp he with h1 | h1
      · subst h1
        refine ⟨0, b, rfl, rfl, rfl, ?_, ?_⟩ <;>
          simp [joinXs_cons, joinYs_cons, joinXs, joinYs]
      · exact step e h1

/-- C1 -- amended.  What the genome-wide reducer actually does: a bin (or,
in full mode, an accumulator) whose array length is `0` is *skipped with a
warning and omitted from the result table* (not reported as `"NA"` with
`n = 0`), and every reported entry -- for every `n >= 1`, including
`1..3` -- carries a *numeric* Pearson coefficient together with the true
`n`; in partial mode the result is exactly the nonempty bins, each with
the Pearson statistics of its own arrays.  (The `n <= 3 -> "NA"` rule of
the claim exists only in `local_acf`.) -/
theorem acf_reducer_skips_empty_reports_numeric (part : Bool) (bins : List LagBin) :
    (∀ e ∈ acfReduce part bins, 1 ≤ e.n ∧ isNA e.coef = false) ∧
      (acfReduce true bins).Perm
        ((bins.reverse.filter (fun b => decide (b.xs.length ≠ 0))).map mkP) := by
  constructor
  · intro e he
    have he2 : e ∈ reduceLoop part bins.reverse [] [] :=
      ((sortEntries_perm _).mem_iff).mp he
    exact mem_reduceLoop_pos part bins.reverse [] [] e he2
  · have h1 : (acfReduce true bins).Perm (reduceLoop true bins.reverse [] []) :=
      sortEntries_perm _
    rw [reduceLoop_partial_eq bins.reverse [] []] at h1
    exact h1

/-- Witness for C1's amended theorem: a single merged bin holding the two
small-lag pairs of the spec's scenario; its `n = 2` entry is reported
numerically. -/
theorem acf_reducer_skips_empty_reports_numeric_witness :
    1 ≤ (mkP ⟨0, 15, [1/10, 1/5], [1/5, 3/10]⟩).n ∧
      isNA (mkP ⟨0, 15, [1/10, 1/5], [1/5, 3/10]⟩).coef = false :=
  (acf_reducer_skips_empty_reports_numeric true
      [⟨0, 15, [1/10, 1/5], [1/5, 3/10]⟩]).1
    (mkP ⟨0, 15, [1/10, 1/5], [1/5, 3/10]⟩)
    ((show acfReduce true [⟨0, 15, [1/10, 1/5], [1/5, 3/10]⟩]
        = [mkP ⟨0, 15, [1/10, 1/5], [1/5, 3/10]⟩] from rfl).symm ▸
      List.mem_cons_self _ _)

/-- C3.  Full mode: the reducer pops bins smallest lag first, appends each
bin's arrays to an accumulator that starts empty, and reports each bin's
statistics over the entire accumulator so far (every emitted entry equals
the Pearson statistics of the concatenation of the first `k+1`
smallest-lag bins); consequently the reported `n`s are non-decreasing
from each bin to the next-larger lag bin. -/
theorem full_mode_cumulative_monotone (bins : List LagBin)
    (hk : List.Pairwise (fun a b : LagBin => b.lagMin < a.lagMin) bins) :
    List.Chain' (fun a b : ResEntry => a.n ≤ b.n) (acfReduce false bins) ∧
      ∀ e ∈ acfReduce false bins, ∃ (k : ℕ) (b : LagBin),
        bins.reverse.get? k = some b ∧ e.lagMin = b.lagMin ∧ e.lagMax = b.lagMax ∧
        e.coef = Coef.val (corrKey (joinXs (bins.reverse.take (k+1)))
          (joinYs (bins.reverse.take (k+1)))) ∧
        e.n = (joinXs (bins.reverse.take (k+1))).length := by
  have hasc : List.Pairwise (fun a b : LagBin => a.lagMin < b.lagMin) bins.reverse := by
    rw [List.pairwise_reverse]
    exact hk
  have hid : sortEntries (reduceLoop false bins.reverse [] []) =
      reduceLoop false bins.reverse [] [] := by
    apply sortEntries_sorted_id
    exact (reduceLoop_pairwise false bins.reverse [] [] hasc).imp (fun h => Or.inl h)
  constructor
  · rw [acfReduce, hid]
    exact (reduceLoop_full_chain bins.reverse [] []).1
  · intro e he
    rw [acfReduce, hid] at he
    rcases reduceLoop_full_char bins.reverse [] [] e he with ⟨k, b, hk2, h1, h2, h3, h4⟩
    rw [List.nil_append] at h3 h4
    rw [List.nil_append] at h3
    exact ⟨k, b, hk2, h1, h2, h3, h4⟩

/-- Witness for C3: the merged bins of the spec's scenario in full mode. -/
theorem full_mode_cumulative_monotone_witness :
    List.Pairwise (fun a b : LagBin => b.lagMin < a.lagMin)
        [⟨15, 35, [1/10], [3/10]⟩, ⟨0, 15, [1/10, 1/5], [1/5, 3/10]⟩] ∧
      List.Chain' (fun a b : ResEntry => a.n ≤ b.n)
        (acfReduce false [⟨15, 35, [1/10], [3/10]⟩, ⟨0, 15, [1/10, 1/5], [1/5, 3/10]⟩]) :=
  ⟨by decide,
    (full_mode_cumulative_monotone
      [⟨15, 35, [1/10], [3/10]⟩, ⟨0, 15, [1/10, 1/5], [1/5, 3/10]⟩] (by decide)).1⟩

/-- C8.  The elementwise transform `t` (standing for `-log10`) is applied
to *both* value arrays before the Pearson statistics in the local reducer
(when a coefficient is computed at all, i.e. `n > 3`), and the genome-wide
reducer -- which has no transform option -- computes every coefficient on
the *untransformed* arrays in both of its modes: in partial mode every
entry is `mkP b`, the Pearson statistics of the bin's own raw `b.xs`,
`b.ys`; in full (cumulative, `--full`) mode every entry's coefficient is
the Pearson statistics of the raw concatenated accumulator arrays
`joinXs`/`joinYs`, again with no transform applied. -/
theorem log_transform_local_genome (t : ℚ → ℚ) :
    (∀ b : LagBin, 3 < b.xs.length →
        localEntry t b
          = ⟨b.lagMin, b.lagMax, Coef.val (corrKey (b.xs.map t) (b.ys.map t)),
              b.xs.length⟩) ∧
      (∀ bins : List LagBin, ∀ e ∈ acfReduce true bins, ∃ b ∈ bins, e = mkP b) ∧
      ∀ bins : List LagBin, ∀ e ∈ acfReduce false bins, ∃ k : ℕ,
        e.coef = Coef.val (corrKey (joinXs (bins.reverse.take (k+1)))
          (joinYs (bins.reverse.take (k+1)))) := by
  refine ⟨?_, ?_, ?_⟩
  · intro b hb
    simp only [localEntry, if_pos hb]
  · intro bins e he
    have hperm : (acfReduce true bins).Perm (reduceLoop true bins.reverse [] []) :=
      sortEntries_perm _
    rw [reduceLoop_partial_eq bins.reverse [] []] at hperm
    have he2 := hperm.mem_iff.mp he
    rcases List.mem_map.mp he2 with ⟨b, hbf, rfl⟩
    have hb : b ∈ bins.reverse := List.mem_of_mem_filter hbf
    exact ⟨b, List.mem_reverse.mp hb, rfl⟩
  · intro bins e he
    have hperm : (acfReduce false bins).Perm (reduceLoop false bins.reverse [] []) :=
      sortEntries_perm _
    have he2 := hperm.mem_iff.mp he
    rcases reduceLoop_full_char bins.reverse [] [] e he2 with ⟨k, b, _, _, _, h3, _⟩
    simp only [List.nil_append] at h3
    exact ⟨k, h3⟩

/-- Witness for C8: a bin with four pairs and the transform `q ↦ -q`. -/
theorem log_transform_local_genome_witness :
    3 < ([1, 2, 3, 4] : List ℚ).length ∧
      localEntry (fun q => -q) ⟨0, 15, [1, 2, 3, 4], [5, 6, 7, 8]⟩
        = ⟨0, 15, Coef.val (corrKey ([1, 2, 3, 4].map (fun q : ℚ => -q))
            ([5, 6, 7, 8].map (fun q : ℚ => -q))), 4⟩ :=
  ⟨by decide,
    (log_transform_local_genome (fun q => -q)).1 ⟨0, 15, [1, 2, 3, 4], [5, 6, 7, 8]⟩
      (by decide)⟩

lemma statsOfM_coe (ps : List (ℚ × ℚ)) : statsOfM (↑ps) = statsOf ps := rfl

lemma corrKey_eq_statsOfM (b : LagBin) :
    corrKey b.xs b.ys = statsOfM (binPairsM b) := rfl

/-- When the bin keys agree pointwise (and the lists have equal length),
one merge step succeeds and concatenates the arrays bin by bin. -/
lemma mergeBins_ok :
    ∀ g u : List LagBin, g.map binKey = u.map binKey →
      mergeBins g u = .ok (List.zipWith combineBins g u) := by
  intro g
  induction g with
  | nil =>
    intro u h
    cases u with
    | nil => rfl
    | cons v vs => simp [binKey] at h
  | cons a g ih =>
    intro u h
    cases u with
    | nil => simp [binKey] at h
    | cons v vs =>
      simp only [List.map_cons, List.cons.injEq] at h
      have hk : a.lagMin = v.lagMin ∧ a.lagMax = v.lagMax := by
        have := h.1
        simp only [binKey, Prod.mk.injEq] at this
        exact this
      simp only [mergeBins, if_pos hk, ih vs h.2, List.zipWith_cons_cons]
      rfl

lemma zipWith_combineBins_binKey :
    ∀ g u : List LagBin, g.map binKey = u.map binKey →
      (List.zipWith combineBins g u).map binKey = g.map binKey := by
  intro g
  induction g with
  | nil => intro u _; rfl
  | cons a g ih =>
    intro u h
    cases u with
    | nil => simp [binKey] at h
    | cons v vs =>
      simp only [List.map_cons, List.cons.injEq] at h
      simp only [List.zipWith_cons_cons, List.map_cons, ih vs h.2]
      rfl

lemma zipWith_combineBins_len :
    ∀ g u : List LagBin, (∀ b ∈ g, b.xs.length = b.ys.length) →
      (∀ b ∈ u, b.xs.length = b.ys.length) →
      ∀ b ∈ List.zipWith combineBins g u, b.xs.length = b.ys.length := by
  intro g
  induction g with
  | nil => intro u _ _ b hb; cases hb
  | cons a g ih =>
    intro u hg hu b hb
    cases u with
    | nil => cases hb
    | cons v vs =>
      simp only [List.zipWith_cons_cons] at hb
      rcases List.mem_cons.mp hb with h1 | h1
      · rw [h1]
        simp only [combineBins, List.length_append]
        rw [hg a (List.mem_cons_self a g), hu v (List.mem_cons_self v vs)]
      · exact ih vs (fun c hc => hg c (List.mem_cons_of_mem a hc))
          (fun c hc => hu c (List.mem_cons_of_mem v hc)) b h1

/-- Merging two aligned accumulations unions their payloads bin by bin. -/
lemma payload_zipWith :
    ∀ g u : List LagBin, (∀ b ∈ g, b.xs.length = b.ys.length) →
      payload (List.zipWith combineBins g u) = addP (payload g) (payload u) := by
  intro g
  induction g with
  | nil => intro u _; rfl
  | cons a g ih =>
    intro u hg
    cases u with
    | nil => rfl
    | cons v vs =>
      simp only [List.zipWith_cons_cons, payload, List.map_cons, addP] at *
      congr 1
      · show binPairsM (combineBins a v) = binPairsM a + binPairsM v
        simp only [binPairsM, combineBins]
        rw [List.zip_append (hg a (List.mem_cons_self a g))]
        exact_mod_cast rfl
      · exact ih vs (fun c hc => hg c (List.mem_cons_of_mem a hc))

/-- The merge loop over the remaining sources: succeeds on aligned units,
keeps the keys and the equal-length invariant, and its payload is the fold
of the pointwise unions. -/
lemma mergeFold_spec :
    ∀ (rest : List (List LagBin)) (g : List LagBin) (ks : List (Int × Int)),
      g.map binKey = ks → (∀ u ∈ rest, u.map binKey = ks) →
      (∀ b ∈ g, b.xs.length = b.ys.length) →
      (∀ u ∈ rest, ∀ b ∈ u, b.xs.length = b.ys.length) →
      ∃ m, mergeFold g rest = .ok m ∧ m.map binKey = ks ∧
        (∀ b ∈ m, b.xs.length = b.ys.length) ∧
        payload m = (rest.map payload).foldl addP (payload g) := by
  intro rest
  induction rest with
  | nil =>
    intro g ks hg _ hlg _
    exact ⟨g, rfl, hg, hlg, rfl⟩
  | cons u rest ih =>
    intro g ks hg hu hlg hlu
    have hku : u.map binKey = ks := hu u (List.mem_cons_self u rest)
    have hgu : g.map binKey = u.map binKey := by rw [hg, hku]
    have hstep := mergeBins_ok g u hgu
    have hlu1 : ∀ b ∈ u, b.xs.length = b.ys.length :=
      hlu u (List.mem_cons_self u rest)
    have hg2k : (List.zipWith combineBins g u).map binKey = ks := by
      rw [zipWith_combineBins_binKey g u hgu, hg]
    have hg2l := zipWith_combineBins_len g u hlg hlu1
    rcases ih (List.zipWith combineBins g u) ks hg2k
        (fun v hv => hu v (List.mem_cons_of_mem u hv)) hg2l
        (fun v hv => hlu v (List.mem_cons_of_mem u hv)) with ⟨m, hm, hmk, hml, hmp⟩
    refine ⟨m, ?_, hmk, hml, ?_⟩
    · simp only [mergeFold, hstep]
      exact hm
    · rw [hmp, payload_zipWith g u hlg]
      simp [List.foldl_cons]

lemma addP_left_comm :
    ∀ b x y : List (Multiset (ℚ × ℚ)), addP (addP b x) y = addP (addP b y) x := by
  intro b
  induction b with
  | nil => intro x y; rfl
  | cons b0 bt ih =>
    intro x y
    cases x with
    | nil =>
      cases y with
      | nil => rfl
      | cons y0 yt => rfl
    | cons x0 xt =>
      cases y with
      | nil => rfl
      | cons y0 yt =>
        simp only [addP, List.zipWith_cons_cons] at *
        rw [add_right_comm, ih xt yt]

lemma foldl_addP_perm {l₁ l₂ : List (List (Multiset (ℚ × ℚ)))} (h : l₁.Perm l₂) :
    ∀ b, l₁.foldl addP b = l₂.foldl addP b := by
  induction h with
  | nil => intro b; rfl
  | cons x _ ih => intro b; simp only [List.foldl_cons, ih]
  | swap x y l => intro b; simp only [List.foldl_cons, addP_left_comm]
  | trans _ _ ih1 ih2 => intro b; rw [ih1, ih2]

lemma addP_replicate_zero :
    ∀ x : List (Multiset (ℚ × ℚ)), addP (List.replicate x.length 0) x = x := by
  intro x
  induction x with
  | nil => rfl
  | cons a t ih =>
    simp only [List.length_cons, List.replicate_succ, addP, List.zipWith_cons_cons, zero_add]
    rw [show List.zipWith (· + ·) (List.replicate t.length 0) t = t from ih]

/-- `merge_acfs` on nonempty aligned units: it succeeds and its payload is
the order-free fold of all units' payloads. -/
lemma merge_acfs_payload (units : List (List LagBin)) (ks : List (Int × Int))
    (hne : units ≠ [])
    (halign : ∀ u ∈ units, u.map binKey = ks)
    (hlen : ∀ u ∈ units, ∀ b ∈ u, b.xs.length = b.ys.length) :
    ∃ m, merge_acfs units = .ok m ∧ m.map binKey = ks ∧
      (∀ b ∈ m, b.xs.length = b.ys.length) ∧
      payload m = (units.map payload).foldl addP
        (List.replicate ks.length (0 : Multiset (ℚ × ℚ))) := by
  have hgl : units.getLast? = some (units.getLast hne) := List.getLast?_eq_getLast units hne
  have hlast_mem : units.getLast hne ∈ units := List.getLast_mem hne
  have hmerge : merge_acfs units = mergeFold (units.getLast hne) units.dropLast := by
    simp [merge_acfs, hgl]
  rcases mergeFold_spec units.dropLast (units.getLast hne) ks (halign _ hlast_mem)
      (fun u hu => halign u ((List.dropLast_sublist units).subset hu))
      (hlen _ hlast_mem)
      (fun u hu => hlen u ((List.dropLast_sublist units).subset hu)) with
    ⟨m, hm, hmk, hml, hmp⟩
  refine ⟨m, by rw [hmerge]; exact hm, hmk, hml, ?_⟩
  rw [hmp]
  have hplen : (payload (units.getLast hne)).length = ks.length := by
    have : ((units.getLast hne).map binKey).length = ks.length := by
      rw [halign _ hlast_mem]
    simpa [payload] using this
  have hz : addP (List.replicate ks.length (0 : Multiset (ℚ × ℚ)))
      (payload (units.getLast hne)) = payload (units.getLast hne) := by
    rw [← hplen]
    exact addP_replicate_zero _
  rw [← hz]
  rw [show ∀ (L : List (List (Multiset (ℚ × ℚ)))) (a b : List (Multiset (ℚ × ℚ))),
        L.foldl addP (addP a b) = (b :: L).foldl addP a from fun L a b => rfl]
  rw [← List.map_cons payload]
  apply foldl_addP_perm
  apply List.Perm.map
  have hsplit : units.dropLast ++ [units.getLast hne] = units :=
    List.dropLast_append_getLast hne
  calc (units.getLast hne :: units.dropLast).Perm
        (units.dropLast ++ [units.getLast hne]) :=
        (List.perm_append_singleton _ _).symm
    _ = units := hsplit

lemma map_len_eq_payload (m : List LagBin) (hml : ∀ b ∈ m, b.xs.length = b.ys.length) :
    m.map (fun b => b.xs.length) = (payload m).map Multiset.card := by
  simp only [payload, List.map_map]
  apply List.map_congr_left
  intro b hb
  show b.xs.length = (binPairsM b).card
  simp only [binPairsM, Multiset.coe_card, List.length_zip, hml b hb, min_self]

lemma map_corr_eq_payload (m : List LagBin) :
    m.map (fun b => corrKey b.xs b.ys) = (payload m).map statsOfM := by
  simp only [payload, List.map_map]
  apply List.map_congr_left
  intro b _
  exact corrKey_eq_statsOfM b

/-- C5.  Merging per-unit accumulation sets that were all built against
the same lag bin skeleton `ks` (so their bins align and every bin has
paired arrays of equal length) is order-independent: for any permutation
of the source order, `merge_acfs` succeeds, keeps the same bin keys, and
produces the same per-bin pair count and the same per-bin Pearson
sufficient statistics -- hence identical correlation coefficients. -/
theorem merge_permutation_invariant (units units2 : List (List LagBin))
    (ks : List (Int × Int)) (hperm : units.Perm units2) (hne : units ≠ [])
    (halign : ∀ u ∈ units, u.map binKey = ks)
    (hlen : ∀ u ∈ units, ∀ b ∈ u, b.xs.length = b.ys.length) :
    (merge_acfs units).map (fun m => m.map binKey) = .ok ks ∧
      (merge_acfs units2).map (fun m => m.map binKey) = .ok ks ∧
      (merge_acfs units).map (fun m => m.map (fun b => b.xs.length))
        = (merge_acfs units2).map (fun m => m.map (fun b => b.xs.length)) ∧
      (merge_acfs units).map (fun m => m.map (fun b => corrKey b.xs b.ys))
        = (merge_acfs units2).map (fun m => m.map (fun b => corrKey b.xs b.ys)) := by
  have hne2 : units2 ≠ [] := by
    intro h
    exact hne (List.Perm.eq_nil (h ▸ hperm))
  have halign2 : ∀ u ∈ units2, u.map binKey = ks :=
    fun u hu => halign u (hperm.mem_iff.mpr hu)
  have hlen2 : ∀ u ∈ units2, ∀ b ∈ u, b.xs.length = b.ys.length :=
    fun u hu => hlen u (hperm.mem_iff.mpr hu)
  rcases merge_acfs_payload units ks hne halign hlen with ⟨m, hm, hmk, hml, hmp⟩
  rcases merge_acfs_payload units2 ks hne2 halign2 hlen2 with ⟨m2, hm2, hm2k, hm2l, hm2p⟩
  have hpay : payload m = payload m2 := by
    rw [hmp, hm2p]
    exact foldl_addP_perm (hperm.map payload) _
  refine ⟨?_, ?_, ?_, ?_⟩
  · rw [hm]
    exact congrArg Except.ok hmk
  · rw [hm2]
    exact congrArg Except.ok hm2k
  · rw [hm, hm2]
    simp only [Except.map]
    rw [map_len_eq_payload m hml, map_len_eq_payload m2 hm2l, hpay]
  · rw [hm, hm2]
    simp only [Except.map]
    rw [map_corr_eq_payload m, map_corr_eq_payload m2, hpay]

/-- Witness for C5: two one-bin units with the same key `(0, 15)`, merged
in both orders. -/
theorem merge_permutation_invariant_witness :
    (merge_acfs [[⟨0, 15, [1], [2]⟩], [⟨0, 15, [3], [4]⟩]]).map
        (fun m => m.map binKey) = .ok [(0, 15)] ∧
      (merge_acfs [[⟨0, 15, [3], [4]⟩], [⟨0, 15, [1], [2]⟩]]).map
        (fun m => m.map binKey) = .ok [(0, 15)] ∧
      (merge_acfs [[⟨0, 15, [1], [2]⟩], [⟨0, 15, [3], [4]⟩]]).map
          (fun m => m.map (fun b => b.xs.length))
        = (merge_acfs [[⟨0, 15, [3], [4]⟩], [⟨0, 15, [1], [2]⟩]]).map
          (fun m => m.map (fun b => b.xs.length)) ∧
      (merge_acfs [[⟨0, 15, [1], [2]⟩], [⟨0, 15, [3], [4]⟩]]).map
          (fun m => m.map (fun b => corrKey b.xs b.ys))
        = (merge_acfs [[⟨0, 15, [3], [4]⟩], [⟨0, 15, [1], [2]⟩]]).map
          (fun m => m.map (fun b => corrKey b.xs b.ys)) :=
  merge_permutation_invariant
    [[⟨0, 15, [1], [2]⟩], [⟨0, 15, [3], [4]⟩]]
    [[⟨0, 15, [3], [4]⟩], [⟨0, 15, [1], [2]⟩]]
    [(0, 15)]
    (List.Perm.swap ([⟨0, 15, [3], [4]⟩] : List LagBin) [⟨0, 15, [1], [2]⟩] [])
    (List.cons_ne_nil _ _) (by decide) (by decide)

/-- `pairwise` pairs each element with its successor. -/
lemma pairwise_eq_zip_tail {α : Type} :
    ∀ l : List α, pairwise l = l.zip l.tail := by
  intro l
  induction l with
  | nil => rfl
  | cons a t ih =>
    cases t with
    | nil => rfl
    | cons b t2 =>
      simp only [pairwise, List.tail_cons, List.zip_cons_cons]
      rw [ih]
      rfl

lemma zip_range_tail (n : ℕ) :
    (List.range (n+1)).zip (List.range (n+1)).tail
      = (List.range n).map (fun i => (i, i+1)) := by
  have htail : (List.range (n+1)).tail = (List.range n).map Nat.succ := by
    rw [List.range_succ_eq_map]
    rfl
  rw [htail, List.range_succ, ← List.append_nil ((List.range n).map Nat.succ),
    List.zip_append (by simp)]
  simp only [List.zip_nil_right, List.append_nil]
  have hid : List.range n = (List.range n).map id := (List.map_id _).symm
  calc (List.range n).zip ((List.range n).map Nat.succ)
      = ((List.range n).map id).zip ((List.range n).map Nat.succ) := by rw [← hid]
    _ = (List.range n).map (fun i => (id i, Nat.succ i)) := List.zip_map' id Nat.succ _
    _ = (List.range n).map (fun i => (i, i+1)) := by
        apply List.map_congr_left
        intro i _
        simp [Nat.succ_eq_add_one]

/-- The ascending bin keys of `create_acf_list` are the adjacent lag
pairs. -/
lemma create_acf_list_rev_keys (lags : List Int) :
    ((create_acf_list lags).reverse).map binKey = pairwise lags := by
  simp only [create_acf_list, List.reverse_reverse, List.map_map]
  have : (binKey ∘ fun q : Int × Int => (⟨q.1, q.2, [], []⟩ : LagBin)) = id := by
    funext q
    rfl
  rw [this, List.map_id]

/-- C6 -- amended.  For `step > 0` and `lo ≤ hi`, the lag list built by
`run` (`range(lo, hi+1, step)`) yields the ordered, half-open,
non-overlapping, contiguous bins `[lo+i*step, lo+(i+1)*step)` for
`i = 0 .. (hi-lo)/step - 1` (ascending key order), and its last generated
lag value is `lo + step*((hi-lo)/step)` -- which equals the caller-visible
stop `hi` exactly when `step` divides `hi - lo`, not for every valid
input. -/
theorem lag_bins_contiguous_last_lag (lo hi step : Int)
    (hstep : 0 < step) (hle : lo ≤ hi) :
    (pythonRange lo (hi + 1) step).map
        (fun lags => ((create_acf_list lags).reverse).map binKey)
      = .ok ((List.range ((hi - lo).toNat / step.toNat)).map
          (fun i : ℕ => (lo + step * (i : Int), lo + step * ((i : Int) + 1)))) ∧
      (pythonRange lo (hi + 1) step).map (fun lags => lags.getLast?)
        = .ok (some (lo + step * (((hi - lo).toNat / step.toNat : ℕ) : Int))) ∧
      ((hi - lo) % step = 0 →
        (pythonRange lo (hi + 1) step).map (fun lags => lags.getLast?)
          = .ok (some hi)) := by
  have hs0 : ¬ step = 0 := by omega
  have hs1 : 0 < step.toNat := by omega
  have hcnt : ((hi + 1 - lo).toNat + step.toNat - 1) / step.toNat
      = (hi - lo).toNat / step.toNat + 1 := by
    have h1 : (hi + 1 - lo).toNat + step.toNat - 1 = (hi - lo).toNat + step.toNat := by
      omega
    rw [h1, Nat.add_div_right _ hs1]
  have hrange : pythonRange lo (hi + 1) step
      = .ok ((List.range ((hi - lo).toNat / step.toNat + 1)).map
          (fun i : ℕ => lo + step * (i : Int))) := by
    simp only [pythonRange, if_neg hs0, if_pos hstep, hcnt]
  have hkeys : ((create_acf_list ((List.range ((hi - lo).toNat / step.toNat + 1)).map
          (fun i : ℕ => lo + step * (i : Int)))).reverse).map binKey
      = (List.range ((hi - lo).toNat / step.toNat)).map
          (fun i : ℕ => (lo + step * (i : Int), lo + step * ((i : Int) + 1))) := by
    rw [create_acf_list_rev_keys, pairwise_eq_zip_tail]
    rw [show ((List.range ((hi - lo).toNat / step.toNat + 1)).map
          (fun i : ℕ => lo + step * (i : Int))).tail
        = ((List.range ((hi - lo).toNat / step.toNat + 1)).tail).map
          (fun i : ℕ => lo + step * (i : Int)) from (List.map_tail _ _).symm]
    rw [List.zip_map, zip_range_tail, List.map_map]
    apply List.map_congr_left
    intro i _
    apply Prod.ext
    · simp [Prod.map_apply]
    · simp only [Function.comp_apply, Prod.map_apply]
      push_cast
      ring
  have hlast : (((List.range ((hi - lo).toNat / step.toNat + 1)).map
          (fun i : ℕ => lo + step * (i : Int)))).getLast?
      = some (lo + step * (((hi - lo).toNat / step.toNat : ℕ) : Int)) := by
    rw [List.range_succ, List.map_append]
    exact List.getLast?_concat _
  rw [hrange]
  refine ⟨congrArg Except.ok hkeys, congrArg Except.ok hlast, ?_⟩
  intro hdvd
  have hq : lo + step * (((hi - lo).toNat / step.toNat : ℕ) : Int) = hi := by
    rcases Int.dvd_of_emod_eq_zero hdvd with ⟨c, hc⟩
    have hc0 : 0 ≤ c := by
      by_contra hneg
      push_neg at hneg
      have : step * c < 0 := mul_neg_of_pos_of_neg hstep hneg
      omega
    have hD : (hi - lo).toNat = step.toNat * c.toNat := by
      have h2 : hi - lo = ((step.toNat * c.toNat : ℕ) : Int) := by
        push_cast
        rw [Int.toNat_of_nonneg (le_of_lt hstep), Int.toNat_of_nonneg hc0]
        exact hc
      omega
    rw [hD, Nat.mul_div_cancel_left _ hs1, Int.toNat_of_nonneg hc0]
    omega
  have hfin : ((List.range ((hi - lo).toNat / step.toNat + 1)).map
      (fun i : ℕ => lo + step * (i : Int))).getLast? = some hi := by
    rw [hlast, hq]
  exact congrArg Except.ok hfin

/-- Witness for C6: the specification `(lo, hi, step) = (0, 10, 5)`, where
`step` divides `hi - lo`, so the last lag equals `hi = 10`. -/
theorem lag_bins_contiguous_last_lag_witness :
    (pythonRange 0 (10 + 1) 5).map
        (fun lags => ((create_acf_list lags).reverse).map binKey)
      = .ok ((List.range (((10 : Int) - 0).toNat / (5 : Int).toNat)).map
          (fun i : ℕ => (0 + 5 * (i : Int), 0 + 5 * ((i : Int) + 1)))) ∧
      (pythonRange 0 (10 + 1) 5).map (fun lags => lags.getLast?)
        = .ok (some (0 + 5 * (((((10 : Int) - 0).toNat / (5 : Int).toNat) : ℕ) : Int))) ∧
      (pythonRange 0 (10 + 1) 5).map (fun lags => lags.getLast?) = .ok (some 10) := by
  have h := lag_bins_contiguous_last_lag 0 10 5 (by decide) (by decide)
  exact ⟨h.1, h.2.1, h.2.2 (by decide)⟩

lemma pairwise_short {α : Type} (l : List α) (h : l.length ≤ 1) : pairwise l = [] := by
  cases l with
  | nil => rfl
  | cons a t =>
    cases t with
    | nil => rfl
    | cons b t2 => simp at h

lemma maxLagMax_none {bins : List LagBin} (h : maxLagMax bins = none) : bins = [] := by
  cases bins with
  | nil => rfl
  | cons b rest => simp [maxLagMax] at h

/-- C7 -- amended.  A zero step makes the range construction fail at once
(before any computation), and a lag specification yielding fewer than one
bin (fewer than two lag values) makes the run fail -- with the
empty-sequence `max` error inside the first per-chromosome unit, or the
empty-list `pop` error in the merge when there are no units -- so no
results are produced.  (A *negative* step, by contrast, can produce
degenerate bins and complete without error; see the counterexample.) -/
theorem config_failure_step_zero_or_no_bins (lo hi step : Int)
    (units : List (List Ivl)) (part : Bool) (lags : List Int) :
    (step = 0 → runAcf lo hi step units part = .error .stepZero) ∧
      (lags.length ≤ 1 → (acfModel units lags part).isOk = false) := by
  constructor
  · intro h
    subst h
    simp only [runAcf, pythonRange, if_pos rfl]
    rfl
  · intro h
    have hnil : create_acf_list lags = [] := by
      simp [create_acf_list, pairwise_short lags h]
    have habc : ∀ u : List Ivl, acf_by_chrom u lags = .error .maxEmpty := by
      intro u
      simp [acf_by_chrom, hnil, maxLagMax]
    cases units with
    | nil => rfl
    | cons u us =>
      have hmap : (u :: us).mapM (fun v => acf_by_chrom v lags)
          = (.error .maxEmpty : Except AcfErr (List (List LagBin))) := by
        rw [List.mapM_cons, habc u]
        rfl
      have hmod : acfModel (u :: us) lags part = .error .maxEmpty := by
        unfold acfModel
        rw [hmap]
        rfl
      rw [hmod]
      rfl

/-- Witness for C7's amended theorem: a zero step, and the one-element lag
list `[15]` (zero bins) with no units. -/
theorem config_failure_step_zero_or_no_bins_witness :
    runAcf 0 0 0 [] true = .error .stepZero ∧
      (acfModel [] [15] true).isOk = false :=
  ⟨(config_failure_step_zero_or_no_bins 0 0 0 [] true [15]).1 rfl,
    (config_failure_step_zero_or_no_bins 0 0 0 [] true [15]).2 (by decide)⟩

lemma mem_pairwise_mem {α : Type} :
    ∀ (l : List α) (p : α × α), p ∈ pairwise l → p.1 ∈ l ∧ p.2 ∈ l := by
  intro l
  induction l with
  | nil => intro p hp; cases hp
  | cons a t ih =>
    intro p hp
    cases t with
    | nil => cases hp
    | cons b t2 =>
      simp only [pairwise] at hp
      rcases List.mem_cons.mp hp with h1 | h1
      · rw [h1]
        exact ⟨List.mem_cons_self _ _,
          List.mem_cons_of_mem a (List.mem_cons_self _ _)⟩
      · have h2 := ih p h1
        exact ⟨List.mem_cons_of_mem a h2.1, List.mem_cons_of_mem a h2.2⟩

lemma pairwise_adj_rel {α : Type} (R : α → α → Prop) :
    ∀ l : List α, List.Pairwise R l → ∀ p ∈ pairwise l, R p.1 p.2 := by
  intro l
  induction l with
  | nil => intro _ p hp; cases hp
  | cons a t ih =>
    intro hR p hp
    cases t with
    | nil => cases hp
    | cons b t2 =>
      simp only [pairwise] at hp
      rcases List.mem_cons.mp hp with h1 | h1
      · rw [h1]
        exact (List.pairwise_cons.mp hR).1 b (List.mem_cons_self b t2)
      · exact ih (List.pairwise_cons.mp hR).2 p h1

lemma pairwise_rel_pairs (l : List Int) (hs : List.Pairwise (· < ·) l) :
    List.Pairwise (fun p q : Int × Int => p.2 ≤ q.1) (pairwise l) := by
  induction l with
  | nil => exact List.Pairwise.nil
  | cons a t ih =>
    cases t with
    | nil => exact List.Pairwise.nil
    | cons b t2 =>
      have htail : List.Pairwise (· < ·) (b :: t2) := (List.pairwise_cons.mp hs).2
      simp only [pairwise]
      refine List.pairwise_cons.mpr ⟨?_, ih htail⟩
      intro q hq
      have hq1 : q.1 ∈ b :: t2 := (mem_pairwise_mem (b :: t2) q hq).1
      rcases List.mem_cons.mp hq1 with h1 | h1
      · rw [← h1]
      · exact le_of_lt ((List.pairwise_cons.mp htail).1 q.1 h1)

/-- A strictly increasing lag list yields a well-formed bin list. -/
lemma binsWF_create (lags : List Int) (hs : List.Pairwise (· < ·) lags) :
    binsWF (create_acf_list lags) := by
  constructor
  · rw [create_acf_list, List.pairwise_reverse, List.pairwise_map]
    exact (pairwise_rel_pairs lags hs).imp (fun h => h)
  · intro b hb
    rw [create_acf_list, List.mem_reverse, List.mem_map] at hb
    rcases hb with ⟨p, hp, rfl⟩
    exact pairwise_adj_rel (· < ·) lags hs p hp

lemma pairwise_length {α : Type} :
    ∀ l : List α, (pairwise l).length = l.length - 1 := by
  intro l
  induction l with
  | nil => rfl
  | cons a t ih =>
    cases t with
    | nil => rfl
    | cons b t2 =>
      simp only [pairwise, List.length_cons]
      rw [ih]
      simp

/-- C9 -- amended.  A `local_acf` row lists one cell per lag bin with the
bins ordered from *smallest* lag range to largest (`reversed(...)` of the
largest-first assignment order, matching the ascending column header),
and each cell's statistic uses only that bin's own matching pairs
(partial-mode semantics) drawn from the interval's bounded neighbor
list. -/
theorem local_row_ascending_own_pairs (t : ℚ → ℚ) (neighbors : List Ivl)
    (lags : List Int) (hlags : List.Pairwise (· < ·) lags)
    (hlen : 2 ≤ lags.length) (hs : startSorted neighbors) :
    localRow t neighbors lags
        = .ok (((create_acf_list lags).reverse).map (fun b =>
            localEntry t (appendAll b ((pairsOf neighbors).filter
              (fun q => decide (matchD (distOf q.1 q.2) b)))))) ∧
      ((create_acf_list lags).reverse).map binKey = pairwise lags := by
  refine ⟨?_, create_acf_list_rev_keys lags⟩
  cases hmx : maxLagMax (create_acf_list lags) with
  | none =>
    exfalso
    have h0 := maxLagMax_none hmx
    have h1 : (create_acf_list lags).length = (pairwise lags).length := by
      simp [create_acf_list]
    rw [h0, pairwise_length] at h1
    simp only [List.length_nil] at h1
    omega
  | some mx =>
    have hwf := binsWF_create lags hlags
    have hbound := maxLagMax_bound hmx
    have hchar : acfLoop mx neighbors (create_acf_list lags)
        = (create_acf_list lags).map (fun b =>
            appendAll b ((pairsOf neighbors).filter
              (fun q => decide (matchD (distOf q.1 q.2) b)))) := by
      rw [acfLoop_eq_exhaustive neighbors _ hs hbound]
      exact foldl_binStep_char _ _ hwf
    simp only [localRow, acf_by_chrom, hmx, hchar, Except.map]
    rw [show ((create_acf_list lags).map (fun b =>
          appendAll b ((pairsOf neighbors).filter
            (fun q => decide (matchD (distOf q.1 q.2) b))))).reverse
        = ((create_acf_list lags).reverse).map (fun b =>
          appendAll b ((pairsOf neighbors).filter
            (fun q => decide (matchD (distOf q.1 q.2) b)))) from
      (List.map_reverse _ _).symm]
    rw [List.map_map]
    rfl

/-- Witness for C9's amended theorem: the three-interval neighbor list and
lag bins `[0,15), [15,35)`, with the transform `q ↦ -q`. -/
theorem local_row_ascending_own_pairs_witness :
    localRow (fun q => -q) [⟨0, 10, 1/10⟩, ⟨20, 30, 1/5⟩, ⟨40, 50, 3/10⟩] [0, 15, 35]
        = .ok (((create_acf_list [0, 15, 35]).reverse).map (fun b =>
            localEntry (fun q => -q) (appendAll b
              ((pairsOf [⟨0, 10, 1/10⟩, ⟨20, 30, 1/5⟩, ⟨40, 50, 3/10⟩]).filter
                (fun q => decide (matchD (distOf q.1 q.2) b)))))) ∧
      ((create_acf_list [0, 15, 35]).reverse).map binKey = pairwise [0, 15, 35] :=
  local_row_ascending_own_pairs (fun q => -q)
    [⟨0, 10, 1/10⟩, ⟨20, 30, 1/5⟩, ⟨40, 50, 3/10⟩] [0, 15, 35]
    (by decide) (by decide) (by decide)
